import Mathlib

/-!
Verification development for the pairs-trading engine
(`src/backtesting/vector_backtest.py`, `src/analysis/cointegration.py`).

Shallow embedding conventions:
* a z-score series is a `List (Option ℚ)`; `none` stands for a NaN entry
  (pandas produces NaN z-scores during the rolling warm-up window or when
  the rolling std is zero);
* positions are `Int` with the source's encoding: 0 = FLAT,
  1 = LONG_SPREAD, -1 = SHORT_SPREAD;
* prices and statistics are `ℚ` (the float arithmetic of the source,
  modelled exactly on the rationals);
* a possibly-infinite half-life is a `WithTop ℚ` (`⊤` is `np.inf`).
-/

namespace PairsTrading

/-- One non-NaN step of the signal loop of `run_vectorized_backtest`
(lines 60-69 of `vector_backtest.py`):
from FLAT enter short when `z > entry`, long when `z < -entry`,
otherwise stay; from a held position exit to FLAT when `|z| < exit`,
otherwise keep the position. -/
def stepPos (entry exitT : ℚ) (p : Int) (z : ℚ) : Int :=
  if p = 0 then
    if z > entry then -1
    else if z < -entry then 1
    else 0
  else
    if |z| < exitT then 0
    else p

/-- The signal loop of `run_vectorized_backtest` (lines 52-71): carries the
internal `position` variable through the list of z-scores and records one
signal per day.  On a NaN z-score the source appends `0` to the signal list
and `continue`s, leaving the internal `position` unchanged. -/
def signalsAux (entry exitT : ℚ) : Int → List (Option ℚ) → List Int
  | _, [] => []
  | p, none :: zs => 0 :: signalsAux entry exitT p zs
  | p, some z :: zs =>
      stepPos entry exitT p z :: signalsAux entry exitT (stepPos entry exitT p z) zs

/-- The `df['Position']` column: the recorded position sequence, starting FLAT. -/
def signals (entry exitT : ℚ) (zs : List (Option ℚ)) : List Int :=
  signalsAux entry exitT 0 zs

/-- The internal `position` variable after the loop has consumed `zs`,
starting from `p` (never reset by NaN days). -/
def posAfter (entry exitT : ℚ) : Int → List (Option ℚ) → Int
  | p, [] => p
  | p, none :: zs => posAfter entry exitT p zs
  | p, some z :: zs => posAfter entry exitT (stepPos entry exitT p z) zs

/-- Daily gross PnL `df['Strategy_PnL_Daily'] = df['Position'].shift(1) * df['Spread'].diff()`
(lines 76-80).  Entry `t` of the result is the PnL of day `t+1`:
`pos[t] * (spread[t+1] - spread[t])` — the position decided on day `t`
applied to the day-`t+1` spread move (day 0 has NaN PnL in pandas and is
dropped here). -/
def dailyGross (spread : List ℚ) (pos : List Int) : List ℚ :=
  List.zipWith (fun (p : Int) (ds : ℚ) => (p : ℚ) * ds) pos
    (List.zipWith (fun a b => a - b) spread.tail spread)

/-- Trades `df['Trades'] = df['Position'].diff().abs()` (line 84).  Entry `t` is
`|pos[t+1] - pos[t]|`, the day-`t+1` absolute position change (day 0 has
NaN in pandas and is dropped here). -/
def trades (pos : List Int) : List ℕ :=
  List.zipWith (fun a b => (b - a).natAbs) pos pos.tail

/-- Net PnL `df['Net_PnL'] = df['Strategy_PnL_Daily'] - df['Trades'] * cost_per_trade`
(lines 83-87); the source fixes `cost_per_trade = 0.05`, kept here as the
parameter `c`. -/
def netPnL (c : ℚ) (spread : List ℚ) (pos : List Int) : List ℚ :=
  List.zipWith (fun (g : ℚ) (tr : ℕ) => g - (tr : ℚ) * c)
    (dailyGross spread pos) (trades pos)

/-- The source's hard-coded slippage constant (line 83). -/
def cost_per_trade : ℚ := 5 / 100

theorem signalsAux_length (entry exitT : ℚ) (p : Int) (zs : List (Option ℚ)) :
    (signalsAux entry exitT p zs).length = zs.length := by
  induction zs generalizing p with
  | nil => rfl
  | cons z zs ih =>
      cases z with
      | none => simpa [signalsAux] using ih _
      | some v => simpa [signalsAux] using ih _

theorem signals_length (entry exitT : ℚ) (zs : List (Option ℚ)) :
    (signals entry exitT zs).length = zs.length :=
  signalsAux_length entry exitT 0 zs

theorem stepPos_natAbs_le (entry exitT : ℚ) (p : Int) (z : ℚ)
    (hp : p.natAbs ≤ 1) : (stepPos entry exitT p z).natAbs ≤ 1 := by
  unfold stepPos
  split_ifs <;> simp_all

theorem signalsAux_mem_natAbs_le (entry exitT : ℚ) (p : Int)
    (zs : List (Option ℚ)) (hp : p.natAbs ≤ 1) :
    ∀ r ∈ signalsAux entry exitT p zs, r.natAbs ≤ 1 := by
  induction zs generalizing p with
  | nil => intro r hr; simp [signalsAux] at hr
  | cons z zs ih =>
      intro r hr
      cases z with
      | none =>
          simp only [signalsAux, List.mem_cons] at hr
          rcases hr with h | h
          · simp [h]
          · exact ih p hp r h
      | some v =>
          simp only [signalsAux, List.mem_cons] at hr
          rcases hr with h | h
          · exact h ▸ stepPos_natAbs_le entry exitT p v hp
          · exact ih _ (stepPos_natAbs_le entry exitT p v hp) r h

theorem signals_mem_natAbs_le (entry exitT : ℚ) (zs : List (Option ℚ)) :
    ∀ r ∈ signals entry exitT zs, r.natAbs ≤ 1 :=
  signalsAux_mem_natAbs_le entry exitT 0 zs (by simp)

theorem stepPos_sub_natAbs_le (entry exitT : ℚ) (p : Int) (z : ℚ)
    (hp : p.natAbs ≤ 1) : (stepPos entry exitT p z - p).natAbs ≤ 1 := by
  unfold stepPos
  split_ifs with h1 h2 h3 h4 <;> simp_all

/-- Strengthened chain invariant: starting from an internal position `p`
with `|p| ≤ 1`, and with the previous recorded value `q` equal either to
`p` (previous day non-NaN) or to `0` (previous day NaN or day minus one),
the recorded sequence extends the chain of unit-bounded moves. -/
theorem signalsAux_chain (entry exitT : ℚ) (zs : List (Option ℚ)) :
    ∀ p q : Int, p.natAbs ≤ 1 → (q = p ∨ q = 0) →
      List.Chain' (fun a b => (b - a).natAbs ≤ 1) (q :: signalsAux entry exitT p zs) := by
  induction zs with
  | nil => intro p q hp hq; simp [signalsAux]
  | cons z zs ih =>
      intro p q hp hq
      cases z with
      | none =>
          refine List.chain'_cons.mpr ⟨?_, ih p 0 hp (Or.inr rfl)⟩
          rcases hq with h | h
          · subst h; simpa using hp
          · subst h; simp
      | some v =>
          refine List.chain'_cons.mpr
            ⟨?_, ih _ _ (stepPos_natAbs_le entry exitT p v hp) (Or.inl rfl)⟩
          rcases hq with h | h
          · exact h ▸ stepPos_sub_natAbs_le entry exitT p v hp
          · subst h
            simpa using stepPos_natAbs_le entry exitT p v hp

theorem signals_chain (entry exitT : ℚ) (zs : List (Option ℚ)) :
    List.Chain' (fun a b => (b - a).natAbs ≤ 1) (signals entry exitT zs) :=
  (signalsAux_chain entry exitT zs 0 0 (by simp) (Or.inl rfl)).tail

theorem zipWith_getD {α β γ : Type} (f : α → β → γ) (l₁ : List α) (l₂ : List β)
    (d₁ : α) (d₂ : β) (d₃ : γ) :
    ∀ t : ℕ, t < l₁.length → t < l₂.length →
      (List.zipWith f l₁ l₂).getD t d₃ = f (l₁.getD t d₁) (l₂.getD t d₂) := by
  induction l₁ generalizing l₂ with
  | nil => intro t ht; simp at ht
  | cons a l₁ ih =>
      intro t ht₁ ht₂
      cases l₂ with
      | nil => simp at ht₂
      | cons b l₂ =>
          cases t with
          | zero => simp
          | succ s =>
              simp only [List.zipWith_cons_cons, List.getD_cons_succ]
              exact ih l₂ s (by simpa using ht₁) (by simpa using ht₂)

theorem tail_getD {α : Type} (l : List α) (t : ℕ) (d : α) :
    l.tail.getD t d = l.getD (t + 1) d := by
  cases l <;> simp

theorem signalsAux_append (entry exitT : ℚ) (l₁ l₂ : List (Option ℚ)) :
    ∀ p : Int, signalsAux entry exitT p (l₁ ++ l₂)
      = signalsAux entry exitT p l₁
        ++ signalsAux entry exitT (posAfter entry exitT p l₁) l₂ := by
  induction l₁ with
  | nil => intro p; simp [signalsAux, posAfter]
  | cons z l₁ ih =>
      intro p
      cases z with
      | none => simp [signalsAux, posAfter, ih]
      | some v => simp [signalsAux, posAfter, ih]

/-- On a NaN-free series the recorded position at step `t` is obtained from
the recorded position at step `t-1` (FLAT before step 0) by one application
of the transition function `stepPos` to the day-`t` z-score. -/
theorem signalsAux_map_some_getD (entry exitT : ℚ) (zs : List ℚ) :
    ∀ (p : Int) (t : ℕ), t < zs.length →
      (signalsAux entry exitT p (zs.map some)).getD t 0
        = stepPos entry exitT
            (if t = 0 then p
             else (signalsAux entry exitT p (zs.map some)).getD (t - 1) 0)
            (zs.getD t 0) := by
  induction zs with
  | nil => intro p t ht; simp at ht
  | cons z zs ih =>
      intro p t ht
      cases t with
      | zero => simp [signalsAux]
      | succ s =>
          simp only [List.map_cons, signalsAux, List.getD_cons_succ]
          rw [ih (stepPos entry exitT p z) s (by simpa using ht)]
          cases s with
          | zero => simp
          | succ u => simp

/-- The recorded position one step before step `t` (FLAT before step 0). -/
def prevPos (entry exitT : ℚ) (zs : List ℚ) (t : ℕ) : Int :=
  if t = 0 then 0 else (signals entry exitT (zs.map some)).getD (t - 1) 0

theorem stepPos_flat_short_iff (entry exitT : ℚ) (he : 0 < entry) (z : ℚ) :
    stepPos entry exitT 0 z = -1 ↔ entry < z := by
  unfold stepPos
  split_ifs with h1 h2 <;> simp_all

theorem stepPos_flat_long_iff (entry exitT : ℚ) (he : 0 < entry) (z : ℚ) :
    stepPos entry exitT 0 z = 1 ↔ z < -entry := by
  unfold stepPos
  split_ifs with h1 h2 <;> simp_all <;> linarith

theorem stepPos_exit_iff (entry exitT : ℚ) (p : Int) (hp : p ≠ 0) (z : ℚ) :
    stepPos entry exitT p z = 0 ↔ |z| < exitT := by
  unfold stepPos
  split_ifs <;> simp_all

theorem stepPos_hold (entry exitT : ℚ) (p : Int) (hp : p ≠ 0) (z : ℚ) :
    stepPos entry exitT p z ≠ 0 → stepPos entry exitT p z = p := by
  unfold stepPos
  split_ifs <;> simp_all

theorem stepPos_entry_from_flat (entry exitT : ℚ) (p : Int) (z : ℚ) :
    stepPos entry exitT p z ≠ 0 → stepPos entry exitT p z ≠ p → p = 0 := by
  unfold stepPos
  split_ifs <;> simp_all

theorem prevPos_natAbs_le (entry exitT : ℚ) (zs : List ℚ) (t : ℕ) :
    (prevPos entry exitT zs t).natAbs ≤ 1 := by
  unfold prevPos
  split_ifs with h0
  · simp
  · by_cases hlt : t - 1 < (signals entry exitT (zs.map some)).length
    · rw [List.getD_eq_get _ _ hlt]
      exact signals_mem_natAbs_le _ _ _ _ (List.get_mem _ _ _)
    · rw [List.getD_eq_default _ _ (by omega)]
      simp

/-- C1 (amended to NaN-free z-score series): the recorded position sequence
of `run_vectorized_backtest` satisfies the state machine — every position is
in {-1, 0, 1}; from FLAT it moves to SHORT_SPREAD (-1) exactly when
`z > entry`, to LONG_SPREAD (1) exactly when `z < -entry`; from a held
position it returns to FLAT exactly when `|z| < exit`, otherwise it holds;
and any transition into a non-FLAT position originates from FLAT. -/
theorem backtest_state_machine (entry exitT : ℚ) (hexit : 0 < exitT)
    (hentry : exitT < entry) (zs : List ℚ) (t : ℕ) (ht : t < zs.length) :
    ((signals entry exitT (zs.map some)).getD t 0 = -1
      ∨ (signals entry exitT (zs.map some)).getD t 0 = 0
      ∨ (signals entry exitT (zs.map some)).getD t 0 = 1)
    ∧ (prevPos entry exitT zs t = 0 →
        (((signals entry exitT (zs.map some)).getD t 0 = -1) ↔ entry < zs.getD t 0)
        ∧ (((signals entry exitT (zs.map some)).getD t 0 = 1) ↔ zs.getD t 0 < -entry))
    ∧ (prevPos entry exitT zs t ≠ 0 →
        (((signals entry exitT (zs.map some)).getD t 0 = 0) ↔ |zs.getD t 0| < exitT)
        ∧ ((signals entry exitT (zs.map some)).getD t 0 ≠ 0 →
            (signals entry exitT (zs.map some)).getD t 0 = prevPos entry exitT zs t))
    ∧ ((signals entry exitT (zs.map some)).getD t 0 ≠ 0 →
        (signals entry exitT (zs.map some)).getD t 0 ≠ prevPos entry exitT zs t →
        prevPos entry exitT zs t = 0) := by
  have hstep : (signals entry exitT (zs.map some)).getD t 0
      = stepPos entry exitT (prevPos entry exitT zs t) (zs.getD t 0) :=
    signalsAux_map_some_getD entry exitT zs 0 t ht
  have hprev := prevPos_natAbs_le entry exitT zs t
  have he : (0 : ℚ) < entry := lt_trans hexit hentry
  rw [hstep]
  refine ⟨?_, ?_, ?_, ?_⟩
  · have := stepPos_natAbs_le entry exitT (prevPos entry exitT zs t) (zs.getD t 0) hprev
    omega
  · intro h0
    rw [h0]
    exact ⟨stepPos_flat_short_iff entry exitT he _, stepPos_flat_long_iff entry exitT he _⟩
  · intro h0
    exact ⟨stepPos_exit_iff entry exitT _ h0 _, stepPos_hold entry exitT _ h0 _⟩
  · exact stepPos_entry_from_flat entry exitT _ _

/-- C1 counterexample to the claim as stated (over all z-score series): with
entry 2 > exit 1 > 0 and the series [-3, NaN, -1] the recorded sequence is
[1, 0, 1]: step 2 is a FLAT → LONG_SPREAD transition although its z-score
-1 does not satisfy z < -entry (the NaN day recorded FLAT while the internal
state stayed long). -/
theorem backtest_state_machine_cex :
    (0 : ℚ) < 1 ∧ (1 : ℚ) < 2
    ∧ signals 2 1 [some (-3), none, some (-1)] = [1, 0, 1]
    ∧ ¬((-1 : ℚ) < -2) := by
  refine ⟨by norm_num, by norm_num, by decide, by norm_num⟩

theorem backtest_state_machine_witness :
    ((0 : ℚ) < 1 ∧ (1 : ℚ) < 2 ∧ 1 < ([(-3 : ℚ), 0]).length)
    ∧ (((signals 2 1 ([(-3 : ℚ), 0].map some)).getD 1 0 = 0)
        ↔ |([(-3 : ℚ), 0]).getD 1 0| < 1) :=
  ⟨⟨by norm_num, by norm_num, by decide⟩,
   ((backtest_state_machine 2 1 (by norm_num) (by norm_num)
      [(-3 : ℚ), 0] 1 (by decide)).2.2.1 (by decide)).1⟩

/-- C2 counterexample to the claim as stated: with entry 2, exit 1 and
series [-3, NaN], the NaN day records position 0 although the previous day
recorded 1 — the recorded position on a NaN day is not the previous day's
recorded position. -/
theorem nan_day_cex :
    (signals 2 1 [some (-3), none]).getD 1 0
      ≠ (signals 2 1 [some (-3), none]).getD 0 0 := by
  decide

/-- C2 (amended): on a NaN z-score day the loop emits no trading decision —
it records FLAT (0) for that day and leaves the internal state unchanged, so
the signals from the next day on are exactly those that would have been
produced had the NaN day been absent from the series. -/
theorem nan_day_records_flat_keeps_state (entry exitT : ℚ)
    (zs₁ zs₂ : List (Option ℚ)) :
    signals entry exitT (zs₁ ++ none :: zs₂)
      = signals entry exitT zs₁
        ++ 0 :: (signals entry exitT (zs₁ ++ zs₂)).drop zs₁.length := by
  unfold signals
  rw [signalsAux_append, signalsAux_append,
    show zs₁.length = (signalsAux entry exitT 0 zs₁).length from
      (signalsAux_length entry exitT 0 zs₁).symm,
    List.drop_left]
  simp [signalsAux]

theorem trades_le_one_of_chain (l : List Int)
    (h : List.Chain' (fun a b => (b - a).natAbs ≤ 1) l) :
    ∀ tr ∈ trades l, tr ≤ 1 := by
  induction l with
  | nil => intro tr htr; simp [trades] at htr
  | cons a l ih =>
      cases l with
      | nil => intro tr htr; simp [trades] at htr
      | cons b l =>
          intro tr htr
          simp only [trades, List.tail_cons, List.zipWith_cons_cons,
            List.mem_cons] at htr
          rcases htr with h1 | h1
          · subst h1
            exact (List.chain'_cons.mp h).1
          · exact ih (List.chain'_cons.mp h).2 tr h1

/-- C10: consecutive recorded positions never differ by more than one unit,
so every entry of the trades series (`df['Position'].diff().abs()`) is at
most 1: the per-day transaction cost never exceeds one unit of the cost
per trade, and a two-unit flip is unreachable in a single step. -/
theorem position_single_step (entry exitT : ℚ) (zs : List (Option ℚ)) :
    List.Chain' (fun a b => (b - a).natAbs ≤ 1) (signals entry exitT zs)
    ∧ ∀ tr ∈ trades (signals entry exitT zs), tr ≤ 1 :=
  ⟨signals_chain entry exitT zs,
   trades_le_one_of_chain _ (signals_chain entry exitT zs)⟩

theorem position_single_step_witness :
    1 ∈ trades (signals 2 1 [some (-3), some 0]) ∧ (1 : ℕ) ≤ 1 :=
  ⟨by decide, (position_single_step 2 1 [some (-3), some 0]).2 1 (by decide)⟩

theorem zipWith_zero_cost {l₁ : List ℚ} {l₂ : List ℕ} :
    List.zipWith (fun (g : ℚ) (tr : ℕ) => g - (tr : ℚ) * 0) l₁ l₂
      = l₁.take l₂.length := by
  induction l₁ generalizing l₂ with
  | nil => simp
  | cons a l₁ ih =>
      cases l₂ with
      | nil => simp
      | cons b l₂ =>
          simp only [List.zipWith_cons_cons, List.length_cons,
            List.take_succ_cons, ih]
          norm_num

/-- C3: entry `t` of the net PnL series is the day-`t+1` accounting line of
`run_vectorized_backtest` (lines 76-87): the position recorded on day `t`
(one-step lag, so the decision of day `t` is applied from day `t+1`) times
the day-`t+1` spread move, minus the transaction cost `|Δposition| · c`
(entering or exiting moves the position by one unit, hence costs one unit
of `c`; a two-unit flip would cost two); and with zero cost per trade the
net PnL series is exactly the gross lagged-position-weighted spread-delta
series, so its sum over any holding period equals the sum of
lagged-position-weighted spread deltas. -/
theorem pnl_accounting (c : ℚ) (spread : List ℚ) (entry exitT : ℚ)
    (zs : List (Option ℚ)) (t : ℕ)
    (hlen : spread.length = zs.length)
    (ht : t + 1 < spread.length) :
    ((netPnL c spread (signals entry exitT zs)).getD t 0
      = ((signals entry exitT zs).getD t 0 : ℚ)
          * (spread.getD (t + 1) 0 - spread.getD t 0)
        - (((signals entry exitT zs).getD (t + 1) 0
            - (signals entry exitT zs).getD t 0).natAbs : ℚ) * c)
    ∧ netPnL 0 spread (signals entry exitT zs)
        = dailyGross spread (signals entry exitT zs) := by
  have hpos : (signals entry exitT zs).length = zs.length :=
    signals_length entry exitT zs
  constructor
  · have hg : t < (dailyGross spread (signals entry exitT zs)).length := by
      simp only [dailyGross, List.length_zipWith, List.length_tail]
      omega
    have htr : t < (trades (signals entry exitT zs)).length := by
      simp only [trades, List.length_zipWith, List.length_tail]
      omega
    rw [netPnL, zipWith_getD _ _ _ 0 0 0 t hg htr]
    rw [dailyGross, zipWith_getD _ _ _ 0 0 0 t (by omega)
      (by simp only [List.length_zipWith, List.length_tail]; omega)]
    rw [zipWith_getD _ _ _ 0 0 0 t (by simp only [List.length_tail]; omega)
      (by omega)]
    rw [trades, zipWith_getD _ _ _ 0 0 0 t (by omega)
      (by simp only [List.length_tail]; omega)]
    rw [tail_getD, tail_getD]
  · rw [netPnL, zipWith_zero_cost, List.take_of_length_le]
    simp only [dailyGross, trades, List.length_zipWith, List.length_tail]
    omega

theorem pnl_accounting_witness :
    (([(0 : ℚ), 2]).length = ([some (-3 : ℚ), some (-3)]).length
      ∧ 0 + 1 < ([(0 : ℚ), 2]).length)
    ∧ (((netPnL 1 [0, 2] (signals 2 1 [some (-3), some (-3)])).getD 0 0
        = ((signals 2 1 [some (-3), some (-3)]).getD 0 0 : ℚ)
            * (([(0 : ℚ), 2]).getD (0 + 1) 0 - ([(0 : ℚ), 2]).getD 0 0)
          - (((signals 2 1 [some (-3), some (-3)]).getD (0 + 1) 0
              - (signals 2 1 [some (-3), some (-3)]).getD 0 0).natAbs : ℚ) * 1)
      ∧ netPnL 0 [0, 2] (signals 2 1 [some (-3), some (-3)])
          = dailyGross [0, 2] (signals 2 1 [some (-3), some (-3)])) :=
  ⟨⟨by decide, by decide⟩,
   pnl_accounting 1 [0, 2] 2 1 [some (-3), some (-3)] 0 (by decide) (by decide)⟩

/-- Modelled from the spec: `run_vectorized_backtest` in
`src/backtesting/vector_backtest.py` exposes no stop-loss parameter; §4.4
of the spec describes the BacktestEngine configuration with an optional
`stop_loss_threshold` and the transition "any state → FLAT (forced) when
|z| exceeds it — this check takes priority over the ordinary exit rule".
This transition function performs that check first and otherwise falls back
to the source's `stepPos`. -/
def stepPosStop (entry exitT : ℚ) (stop : Option ℚ) (p : Int) (z : ℚ) : Int :=
  match stop with
  | some s => if s < |z| then 0 else stepPos entry exitT p z
  | none => stepPos entry exitT p z

/-- Modelled from the spec: the signal loop extended with the optional
stop-loss check; NaN days behave as in the source loop. -/
def signalsStopAux (entry exitT : ℚ) (stop : Option ℚ) :
    Int → List (Option ℚ) → List Int
  | _, [] => []
  | p, none :: zs => 0 :: signalsStopAux entry exitT stop p zs
  | p, some z :: zs =>
      stepPosStop entry exitT stop p z
        :: signalsStopAux entry exitT stop (stepPosStop entry exitT stop p z) zs

/-- Modelled from the spec: position sequence with stop-loss, starting FLAT. -/
def signalsStop (entry exitT : ℚ) (stop : Option ℚ)
    (zs : List (Option ℚ)) : List Int :=
  signalsStopAux entry exitT stop 0 zs

theorem signalsStopAux_getD_zero (entry exitT s : ℚ) (zs : List (Option ℚ)) :
    ∀ (p : Int) (t : ℕ) (v : ℚ), zs.getD t none = some v → s < |v| →
      (signalsStopAux entry exitT (some s) p zs).getD t 0 = 0 := by
  induction zs with
  | nil => intro p t v hz; simp at hz
  | cons z zs ih =>
      intro p t v hz hv
      cases t with
      | zero =>
          simp only [List.getD_cons_zero] at hz
          subst hz
          simp [signalsStopAux, stepPosStop, if_pos hv]
      | succ u =>
          simp only [List.getD_cons_succ] at hz
          cases z with
          | none => simpa [signalsStopAux] using ih p u v hz hv
          | some w => simpa [signalsStopAux] using ih _ u v hz hv

/-- C4 (modelled from the spec): when a stop-loss threshold `s` is
configured and the day-`t` z-score `v` satisfies `|v| > s`, the forced exit
fires: from any state `p` the transition function returns FLAT, and the
recorded position on day `t` is FLAT — the check runs before (and so takes
priority over) the ordinary `|z| < exit` rule. -/
theorem stop_loss_forces_flat (entry exitT s : ℚ) (zs : List (Option ℚ))
    (t : ℕ) (v : ℚ) (hz : zs.getD t none = some v) (hv : s < |v|) :
    (∀ p : Int, stepPosStop entry exitT (some s) p v = 0)
    ∧ (signalsStop entry exitT (some s) zs).getD t 0 = 0 :=
  ⟨fun p => by simp [stepPosStop, if_pos hv],
   signalsStopAux_getD_zero entry exitT s zs 0 t v hz hv⟩

theorem stop_loss_forces_flat_witness :
    (([some (4 : ℚ)]).getD 0 none = some 4 ∧ (3 : ℚ) < |(4 : ℚ)|)
    ∧ (signalsStop 2 1 (some 3) [some 4]).getD 0 0 = 0
    ∧ stepPosStop 2 1 (some 3) 1 4 = 0 :=
  ⟨⟨by decide, by decide⟩,
   (stop_loss_forces_flat 2 1 3 [some 4] 0 4 (by decide) (by decide)).2,
   (stop_loss_forces_flat 2 1 3 [some 4] 0 4 (by decide) (by decide)).1 1⟩

/-- The per-pair analysis record of `CointegrationAnalyzer.analyze_pair`
(the returned dict, lines 154-170; the `'pair'` label string is omitted).
`half_life` lives in `WithTop ℚ` with `⊤` standing for `np.inf`; `score`
is `none` for the Python `None` placeholder of the success branch. -/
structure PairResult where
  correlation : ℚ
  eg_statistic : ℚ
  eg_pvalue : ℚ
  cointegrated : Bool
  hedge_ratio : ℚ
  adf_statistic : ℚ
  adf_pvalue : ℚ
  spread_stationary : Bool
  half_life : WithTop ℚ
  hurst : ℚ
  mean_reverting : Bool
  spread_mean : ℚ
  spread_std : ℚ
  score : Option ℚ
  deriving DecidableEq

/-- The neutral sentinel dict returned by the `except` branch of
`analyze_pair` (lines 171-188). -/
def sentinelResult : PairResult where
  correlation := 0
  eg_statistic := 0
  eg_pvalue := 1
  cointegrated := false
  hedge_ratio := 0
  adf_statistic := 0
  adf_pvalue := 1
  spread_stationary := false
  half_life := ⊤
  hurst := 1/2
  mean_reverting := false
  spread_mean := 0
  spread_std := 0
  score := some 0

/-- The `try` block of `analyze_pair` (lines 129-170), in source statement
order.  The numeric pandas/statsmodels computations are abstracted as
fallible oracles over an abstract series type `σ`: an `Except Unit` value
models "returns normally or raises".  `half_life` and `hurst_exponent`
carry their own internal `try/except` in the source and never raise, so
they appear as total oracles; `calculate_spread` is pure arithmetic on
series. -/
def analyzePairE (σ : Type) (getData : Except Unit (σ × σ))
    (corrF : σ → σ → Except Unit ℚ)
    (egF : σ → σ → Except Unit (ℚ × ℚ))
    (hedgeF : σ → σ → Except Unit ℚ)
    (spreadF : σ → σ → ℚ → σ)
    (adfF : σ → Except Unit (ℚ × ℚ))
    (hlF : σ → WithTop ℚ)
    (hurstF : σ → ℚ)
    (meanF : σ → Except Unit ℚ)
    (stdF : σ → Except Unit ℚ) : Except Unit PairResult := do
  let d ← getData
  let correlation ← corrF d.1 d.2
  let eg ← egF d.1 d.2
  let hr ← hedgeF d.1 d.2
  let spread := spreadF d.1 d.2 hr
  let adf ← adfF spread
  let hl := hlF spread
  let hurst := hurstF spread
  let m ← meanF spread
  let sd ← stdF spread
  pure { correlation := correlation
         eg_statistic := eg.1
         eg_pvalue := eg.2
         cointegrated := decide (eg.2 < 5/100)
         hedge_ratio := hr
         adf_statistic := adf.1
         adf_pvalue := adf.2
         spread_stationary := decide (adf.2 < 5/100)
         half_life := hl
         hurst := hurst
         mean_reverting := decide (hurst < 1/2)
         spread_mean := m
         spread_std := sd
         score := none }

/-- Method `analyze_pair` as a whole: the `try` block's result, or the neutral
sentinel on any exception (lines 171-188). -/
def analyzePair (σ : Type) (getData : Except Unit (σ × σ))
    (corrF : σ → σ → Except Unit ℚ)
    (egF : σ → σ → Except Unit (ℚ × ℚ))
    (hedgeF : σ → σ → Except Unit ℚ)
    (spreadF : σ → σ → ℚ → σ)
    (adfF : σ → Except Unit (ℚ × ℚ))
    (hlF : σ → WithTop ℚ)
    (hurstF : σ → ℚ)
    (meanF : σ → Except Unit ℚ)
    (stdF : σ → Except Unit ℚ) : PairResult :=
  match analyzePairE σ getData corrF egF hedgeF spreadF adfF hlF hurstF meanF stdF with
  | .ok r => r
  | .error _ => sentinelResult

/-- C6: whenever any stage of the `analyze_pair` pipeline raises (the `try`
block evaluates to an error), `analyze_pair` does not propagate it and
returns the neutral sentinel: `cointegrated = false`, `score = 0`,
`half_life = +∞`, `hurst = 0.5`. -/
theorem analyze_pair_sentinel (σ : Type) (getData : Except Unit (σ × σ))
    (corrF : σ → σ → Except Unit ℚ)
    (egF : σ → σ → Except Unit (ℚ × ℚ))
    (hedgeF : σ → σ → Except Unit ℚ)
    (spreadF : σ → σ → ℚ → σ)
    (adfF : σ → Except Unit (ℚ × ℚ))
    (hlF : σ → WithTop ℚ)
    (hurstF : σ → ℚ)
    (meanF : σ → Except Unit ℚ)
    (stdF : σ → Except Unit ℚ)
    (h : analyzePairE σ getData corrF egF hedgeF spreadF adfF hlF hurstF meanF stdF
          = .error ()) :
    analyzePair σ getData corrF egF hedgeF spreadF adfF hlF hurstF meanF stdF
        = sentinelResult
    ∧ (analyzePair σ getData corrF egF hedgeF spreadF adfF hlF hurstF meanF stdF).cointegrated
        = false
    ∧ (analyzePair σ getData corrF egF hedgeF spreadF adfF hlF hurstF meanF stdF).score
        = some 0
    ∧ (analyzePair σ getData corrF egF hedgeF spreadF adfF hlF hurstF meanF stdF).half_life
        = ⊤
    ∧ (analyzePair σ getData corrF egF hedgeF spreadF adfF hlF hurstF meanF stdF).hurst
        = 1/2 := by
  have hmain : analyzePair σ getData corrF egF hedgeF spreadF adfF hlF hurstF meanF stdF
      = sentinelResult := by
    unfold analyzePair
    rw [h]
  exact ⟨hmain, by rw [hmain]; rfl, by rw [hmain]; rfl, by rw [hmain]; rfl,
    by rw [hmain]; rfl⟩

theorem analyze_pair_sentinel_witness :
    (analyzePairE Unit (Except.error ()) (fun _ _ => Except.ok 0)
        (fun _ _ => Except.ok (0, 0)) (fun _ _ => Except.ok 0) (fun _ _ _ => ())
        (fun _ => Except.ok (0, 0)) (fun _ => ⊤) (fun _ => 0)
        (fun _ => Except.ok 0) (fun _ => Except.ok 0) = Except.error ())
    ∧ analyzePair Unit (Except.error ()) (fun _ _ => Except.ok 0)
        (fun _ _ => Except.ok (0, 0)) (fun _ _ => Except.ok 0) (fun _ _ _ => ())
        (fun _ => Except.ok (0, 0)) (fun _ => ⊤) (fun _ => 0)
        (fun _ => Except.ok 0) (fun _ => Except.ok 0) = sentinelResult :=
  ⟨rfl,
   (analyze_pair_sentinel Unit (Except.error ()) (fun _ _ => Except.ok 0)
      (fun _ _ => Except.ok (0, 0)) (fun _ _ => Except.ok 0) (fun _ _ _ => ())
      (fun _ => Except.ok (0, 0)) (fun _ => ⊤) (fun _ => 0)
      (fun _ => Except.ok 0) (fun _ => Except.ok 0) rfl).1⟩

/-- The cointegration ladder of `score_pair` (lines 197-203). -/
def cointScore (p : ℚ) : ℚ :=
  if p < 1/100 then 50
  else if p < 5/100 then 30
  else if p < 1/10 then 20
  else 0

/-- The mean-reversion ladder of `score_pair` (lines 205-211). -/
def meanRevScore (hurst : ℚ) (hl : WithTop ℚ) : ℚ :=
  if hurst < 2/5 ∧ hl < ((30 : ℚ) : WithTop ℚ) then 30
  else if hurst < 1/2 ∧ hl < ((60 : ℚ) : WithTop ℚ) then 20
  else if hurst < 3/5 ∧ hl < ((120 : ℚ) : WithTop ℚ) then 10
  else 0

/-- The correlation ladder of `score_pair` (lines 213-219). -/
def corrScore (c : ℚ) : ℚ :=
  if c > 4/5 then 20
  else if c > 7/10 then 15
  else if c > 3/5 then 10
  else 0

/-- Method `CointegrationAnalyzer.score_pair` (lines 190-221): the running
`score += ...` accumulation is the sum of the three ladders. -/
def scorePair (r : PairResult) : ℚ :=
  cointScore r.eg_pvalue + meanRevScore r.hurst r.half_life + corrScore r.correlation

theorem cointScore_cases (p : ℚ) :
    (p < 1/100 ∧ cointScore p = 50)
    ∨ (1/100 ≤ p ∧ p < 5/100 ∧ cointScore p = 30)
    ∨ (5/100 ≤ p ∧ p < 1/10 ∧ cointScore p = 20)
    ∨ (1/10 ≤ p ∧ cointScore p = 0) := by
  unfold cointScore
  split_ifs with h1 h2 h3
  · exact Or.inl ⟨h1, rfl⟩
  · exact Or.inr (Or.inl ⟨not_lt.mp h1, h2, rfl⟩)
  · exact Or.inr (Or.inr (Or.inl ⟨not_lt.mp h2, h3, rfl⟩))
  · exact Or.inr (Or.inr (Or.inr ⟨not_lt.mp h3, rfl⟩))

theorem meanRevScore_cases (hurst : ℚ) (hl : WithTop ℚ) :
    ((hurst < 2/5 ∧ hl < ((30 : ℚ) : WithTop ℚ)) ∧ meanRevScore hurst hl = 30)
    ∨ (¬(hurst < 2/5 ∧ hl < ((30 : ℚ) : WithTop ℚ))
        ∧ (hurst < 1/2 ∧ hl < ((60 : ℚ) : WithTop ℚ)) ∧ meanRevScore hurst hl = 20)
    ∨ (¬(hurst < 2/5 ∧ hl < ((30 : ℚ) : WithTop ℚ))
        ∧ ¬(hurst < 1/2 ∧ hl < ((60 : ℚ) : WithTop ℚ))
        ∧ (hurst < 3/5 ∧ hl < ((120 : ℚ) : WithTop ℚ)) ∧ meanRevScore hurst hl = 10)
    ∨ (¬(hurst < 2/5 ∧ hl < ((30 : ℚ) : WithTop ℚ))
        ∧ ¬(hurst < 1/2 ∧ hl < ((60 : ℚ) : WithTop ℚ))
        ∧ ¬(hurst < 3/5 ∧ hl < ((120 : ℚ) : WithTop ℚ)) ∧ meanRevScore hurst hl = 0) := by
  unfold meanRevScore
  split_ifs with h1 h2 h3
  · exact Or.inl ⟨h1, rfl⟩
  · exact Or.inr (Or.inl ⟨h1, h2, rfl⟩)
  · exact Or.inr (Or.inr (Or.inl ⟨h1, h2, h3, rfl⟩))
  · exact Or.inr (Or.inr (Or.inr ⟨h1, h2, h3, rfl⟩))

theorem corrScore_cases (c : ℚ) :
    (4/5 < c ∧ corrScore c = 20)
    ∨ (c ≤ 4/5 ∧ 7/10 < c ∧ corrScore c = 15)
    ∨ (c ≤ 7/10 ∧ 3/5 < c ∧ corrScore c = 10)
    ∨ (c ≤ 3/5 ∧ corrScore c = 0) := by
  unfold corrScore
  split_ifs with h1 h2 h3
  · exact Or.inl ⟨h1, rfl⟩
  · exact Or.inr (Or.inl ⟨not_lt.mp h1, h2, rfl⟩)
  · exact Or.inr (Or.inr (Or.inl ⟨not_lt.mp h2, h3, rfl⟩))
  · exact Or.inr (Or.inr (Or.inr ⟨not_lt.mp h3, rfl⟩))

theorem cointScore_bounds (p : ℚ) : 0 ≤ cointScore p ∧ cointScore p ≤ 50 := by
  unfold cointScore
  split_ifs <;> norm_num

theorem meanRevScore_bounds (hurst : ℚ) (hl : WithTop ℚ) :
    0 ≤ meanRevScore hurst hl ∧ meanRevScore hurst hl ≤ 30 := by
  unfold meanRevScore
  split_ifs <;> norm_num

theorem corrScore_bounds (c : ℚ) : 0 ≤ corrScore c ∧ corrScore c ≤ 20 := by
  unfold corrScore
  split_ifs <;> norm_num

/-- C8: `score_pair` returns a value in [0, 100] equal to the sum of one
contribution per component, each component contributing the single tier
selected by its descending `if/elif` ladder (exclusive within a component):
cointegration 50/30/20/0 by `eg_pvalue` against 0.01/0.05/0.10, mean
reversion 30/20/10/0 by `(hurst, half_life)` against (0.4, 30)/(0.5, 60)/
(0.6, 120), correlation 20/15/10/0 by `correlation` against 0.8/0.7/0.6. -/
theorem score_pair_ladder (r : PairResult) :
    (0 ≤ scorePair r ∧ scorePair r ≤ 100)
    ∧ scorePair r
        = cointScore r.eg_pvalue + meanRevScore r.hurst r.half_life
          + corrScore r.correlation
    ∧ ((r.eg_pvalue < 1/100 ∧ cointScore r.eg_pvalue = 50)
        ∨ (1/100 ≤ r.eg_pvalue ∧ r.eg_pvalue < 5/100 ∧ cointScore r.eg_pvalue = 30)
        ∨ (5/100 ≤ r.eg_pvalue ∧ r.eg_pvalue < 1/10 ∧ cointScore r.eg_pvalue = 20)
        ∨ (1/10 ≤ r.eg_pvalue ∧ cointScore r.eg_pvalue = 0))
    ∧ (((r.hurst < 2/5 ∧ r.half_life < ((30 : ℚ) : WithTop ℚ))
          ∧ meanRevScore r.hurst r.half_life = 30)
        ∨ (¬(r.hurst < 2/5 ∧ r.half_life < ((30 : ℚ) : WithTop ℚ))
            ∧ (r.hurst < 1/2 ∧ r.half_life < ((60 : ℚ) : WithTop ℚ))
            ∧ meanRevScore r.hurst r.half_life = 20)
        ∨ (¬(r.hurst < 2/5 ∧ r.half_life < ((30 : ℚ) : WithTop ℚ))
            ∧ ¬(r.hurst < 1/2 ∧ r.half_life < ((60 : ℚ) : WithTop ℚ))
            ∧ (r.hurst < 3/5 ∧ r.half_life < ((120 : ℚ) : WithTop ℚ))
            ∧ meanRevScore r.hurst r.half_life = 10)
        ∨ (¬(r.hurst < 2/5 ∧ r.half_life < ((30 : ℚ) : WithTop ℚ))
            ∧ ¬(r.hurst < 1/2 ∧ r.half_life < ((60 : ℚ) : WithTop ℚ))
            ∧ ¬(r.hurst < 3/5 ∧ r.half_life < ((120 : ℚ) : WithTop ℚ))
            ∧ meanRevScore r.hurst r.half_life = 0))
    ∧ ((4/5 < r.correlation ∧ corrScore r.correlation = 20)
        ∨ (r.correlation ≤ 4/5 ∧ 7/10 < r.correlation ∧ corrScore r.correlation = 15)
        ∨ (r.correlation ≤ 7/10 ∧ 3/5 < r.correlation ∧ corrScore r.correlation = 10)
        ∨ (r.correlation ≤ 3/5 ∧ corrScore r.correlation = 0)) := by
  refine ⟨⟨?_, ?_⟩, rfl, cointScore_cases _, meanRevScore_cases _ _, corrScore_cases _⟩
  · have h1 := cointScore_bounds r.eg_pvalue
    have h2 := meanRevScore_bounds r.hurst r.half_life
    have h3 := corrScore_bounds r.correlation
    unfold scorePair
    linarith [h1.1, h2.1, h3.1]
  · have h1 := cointScore_bounds r.eg_pvalue
    have h2 := meanRevScore_bounds r.hurst r.half_life
    have h3 := corrScore_bounds r.correlation
    unfold scorePair
    linarith [h1.2, h2.2, h3.2]

/-- The cleaned series `spread.dropna()` (line 59). -/
def dropna (l : List (Option ℚ)) : List ℚ := l.filterMap id

/-- Sum `Σ x_i²` over the aligned AR(1) regression pairs: `x` is the lagged
spread `spread_clean[t-1]`, taken from the zip of the cleaned series with
its tail (the intersection of the shifted and differenced indices,
lines 64-69). -/
def sumXX (l : List ℚ) : ℚ := ((l.zip l.tail).map (fun q => q.1 * q.1)).sum

/-- Sum `Σ x_i·y_i` with `y` the first difference `spread_clean[t] -
spread_clean[t-1]` (lines 64-77). -/
def sumXY (l : List ℚ) : ℚ := ((l.zip l.tail).map (fun q => q.1 * (q.2 - q.1))).sum

/-- The no-intercept OLS slope `np.linalg.lstsq(X, y)[0][0]` (line 80):
`Σxy / Σx²`, and the least-squares minimum-norm solution 0 when the
regressor is identically zero. -/
def betaHat (l : List ℚ) : ℚ := if sumXX l = 0 then 0 else sumXY l / sumXX l

/-- Method `CointegrationAnalyzer.half_life` (lines 51-96).  `ln2` stands for the
source's `np.log(2)` (≈ 0.6931, irrational, kept as a positive parameter of
the embedding).  The source returns `np.inf` (here `⊤`) when fewer than 20
non-NaN observations exist, when fewer than 10 aligned regression rows
exist, when the AR(1) slope is ≥ 0, and when the computed half-life is
non-positive or exceeds 500 (`np.isfinite` cannot fail over ℚ: the slope is
nonzero in the branch where the division happens). -/
def half_life (ln2 : ℚ) (spread : List (Option ℚ)) : WithTop ℚ :=
  if (dropna spread).length < 20 then ⊤
  else if ((dropna spread).zip (dropna spread).tail).length < 10 then ⊤
  else if 0 ≤ betaHat (dropna spread) then ⊤
  else if -ln2 / betaHat (dropna spread) ≤ 0
      ∨ 500 < -ln2 / betaHat (dropna spread) then ⊤
  else ((-ln2 / betaHat (dropna spread) : ℚ) : WithTop ℚ)

theorem zip_tail_length {α : Type} (l : List α) :
    (l.zip l.tail).length = l.length - 1 := by
  rw [List.length_zip, List.length_tail]
  omega

/-- C9 (amended): `half_life` is total and returns the `+∞` sentinel when
the cleaned series has fewer than 20 observations (the source's gate; the
secondary 10-aligned-rows gate is subsumed, since 20 observations yield 19
aligned rows), or when the AR(1) slope is ≥ 0, or when `-ln2/λ` exceeds
500; otherwise it returns exactly `-ln2/λ`, which is finite and positive
(so the non-positivity branch of the source's sanity check never fires). -/
theorem half_life_sentinels (ln2 : ℚ) (hln : 0 < ln2) (spread : List (Option ℚ)) :
    ((dropna spread).length < 20 → half_life ln2 spread = ⊤)
    ∧ (0 ≤ betaHat (dropna spread) → half_life ln2 spread = ⊤)
    ∧ (betaHat (dropna spread) < 0 → 500 < -ln2 / betaHat (dropna spread) →
        half_life ln2 spread = ⊤)
    ∧ (20 ≤ (dropna spread).length → betaHat (dropna spread) < 0 →
        -ln2 / betaHat (dropna spread) ≤ 500 →
        half_life ln2 spread = ((-ln2 / betaHat (dropna spread) : ℚ) : WithTop ℚ)
        ∧ 0 < -ln2 / betaHat (dropna spread)) := by
  have hpos : betaHat (dropna spread) < 0 → 0 < -ln2 / betaHat (dropna spread) :=
    fun hb => div_pos_of_neg_of_neg (by linarith) hb
  refine ⟨?_, ?_, ?_, ?_⟩
  · intro h
    unfold half_life
    rw [if_pos h]
  · intro h
    unfold half_life
    split_ifs with h1 h2 h3 <;> first | rfl | exact absurd h h3
  · intro hb hgt
    unfold half_life
    split_ifs with h1 h2 h3 h4 <;> first | rfl | exact absurd (Or.inr hgt) h4
  · intro hlen hb hle
    have h1 : ¬ (dropna spread).length < 20 := by omega
    have h2 : ¬ ((dropna spread).zip (dropna spread).tail).length < 10 := by
      rw [zip_tail_length]
      omega
    have h3 : ¬ 0 ≤ betaHat (dropna spread) := not_le.mpr hb
    have h4 : ¬ (-ln2 / betaHat (dropna spread) ≤ 0
        ∨ 500 < -ln2 / betaHat (dropna spread)) := by
      push_neg
      exact ⟨lt_of_lt_of_le (hpos hb) le_rfl, hle⟩
    refine ⟨?_, hpos hb⟩
    unfold half_life
    rw [if_neg h1, if_neg h2, if_neg h3, if_neg h4]

/-- A 15-observation strictly alternating spread: 14 aligned regression
rows and AR(1) slope -1. -/
def cexSpread15 : List (Option ℚ) :=
  [some 1, some 0, some 1, some 0, some 1, some 0, some 1, some 0,
   some 1, some 0, some 1, some 0, some 1, some 0, some 1]

/-- C9 counterexample to the claim as stated: the claim allows the `+∞`
sentinel only for λ ≥ 0, fewer than ~10 aligned observations, or an
out-of-range half-life.  This series has 14 aligned observations (≥ 10),
slope λ = -1 < 0 and half-life `-ln2/λ = ln2 ∈ (0, 500]` (shown for
ln2 = 1), yet the source returns `np.inf` because of its additional
20-observation minimum on the cleaned series. -/
theorem half_life_cex :
    half_life 1 cexSpread15 = ⊤
    ∧ (dropna cexSpread15).length = 15
    ∧ ((dropna cexSpread15).zip (dropna cexSpread15).tail).length = 14
    ∧ ¬(14 < 10)
    ∧ betaHat (dropna cexSpread15) = -1
    ∧ (0 : ℚ) < 1 ∧ 0 < -(1 : ℚ) / (-1) ∧ -(1 : ℚ) / (-1) ≤ 500 := by
  refine ⟨rfl, by decide, by decide, by decide, ?_, by norm_num, by norm_num,
    by norm_num⟩
  norm_num [betaHat, sumXX, sumXY, dropna, cexSpread15, List.filterMap_cons,
    List.zip_cons_cons, List.sum_cons]

/-- A 20-observation strictly alternating spread: slope -1, half-life ln2. -/
def witSpread20 : List (Option ℚ) :=
  [some 1, some 0, some 1, some 0, some 1, some 0, some 1, some 0,
   some 1, some 0, some 1, some 0, some 1, some 0, some 1, some 0,
   some 1, some 0, some 1, some 0]

theorem half_life_sentinels_witness :
    ((0 : ℚ) < 1 ∧ 20 ≤ (dropna witSpread20).length
      ∧ betaHat (dropna witSpread20) < 0
      ∧ -(1 : ℚ) / betaHat (dropna witSpread20) ≤ 500)
    ∧ (half_life 1 witSpread20
        = ((-(1 : ℚ) / betaHat (dropna witSpread20) : ℚ) : WithTop ℚ)
      ∧ 0 < -(1 : ℚ) / betaHat (dropna witSpread20)) := by
  have hb : betaHat (dropna witSpread20) = -1 := by
    norm_num [betaHat, sumXX, sumXY, dropna, witSpread20, List.filterMap_cons,
      List.zip_cons_cons, List.sum_cons]
  refine ⟨⟨by norm_num, by decide, by rw [hb]; norm_num, by rw [hb]; norm_num⟩, ?_⟩
  exact (half_life_sentinels 1 (by norm_num) witSpread20).2.2.2 (by decide)
    (by rw [hb]; norm_num) (by rw [hb]; norm_num)

/-- One iteration of the double loop of `screen_all_pairs`
(lines 233-257): `none` when the pair is skipped (same ticker, fetch
exception, panel shorter than 500 rows, analysis or scoring exception),
`some (result, score)` when it is collected.  `fetch`, `analyze` and the
score computation are oracles over abstract ticker/panel/result types; an
`Except Unit` value models "returns normally or raises". -/
def screenPair {T π R : Type} [DecidableEq T]
    (fetch : T → T → Except Unit π) (plen : π → ℕ)
    (analyze : T → T → π → Except Unit R) (score : R → Except Unit ℚ)
    (a b : T) : Option (R × ℚ) :=
  if a = b then none
  else
    match fetch a b with
    | .error _ => none
    | .ok p =>
        if plen p < 500 then none
        else
          match analyze a b p with
          | .error _ => none
          | .ok r =>
              match score r with
              | .error _ => none
              | .ok s => some (r, s)

/-- The `results` list accumulated by the double loop, in iteration order
(`for ticker_a in stocks_a: for ticker_b in stocks_b`). -/
def collectPairs {T π R : Type} [DecidableEq T]
    (fetch : T → T → Except Unit π) (plen : π → ℕ)
    (analyze : T → T → π → Except Unit R) (score : R → Except Unit ℚ)
    (stocks_a stocks_b : List T) : List (R × ℚ) :=
  stocks_a.bind (fun a =>
    stocks_b.filterMap (fun b => screenPair fetch plen analyze score a b))

/-- Descending-score order of `df.sort_values('score', ascending=False)`. -/
def scoreDesc {R : Type} (u v : R × ℚ) : Prop := v.2 ≤ u.2

instance {R : Type} : DecidableRel (@scoreDesc R) :=
  fun u v => inferInstanceAs (Decidable (v.2 ≤ u.2))

instance {R : Type} : IsTotal (R × ℚ) scoreDesc :=
  ⟨fun a b => le_total b.2 a.2⟩

instance {R : Type} : IsTrans (R × ℚ) scoreDesc :=
  ⟨fun _ _ _ hab hbc => le_trans hbc hab⟩

/-- Function `screen_all_pairs` (lines 224-267): collect over the cross product and
sort by score, descending (an empty collection yields the empty result). -/
def screenAllPairs {T π R : Type} [DecidableEq T]
    (fetch : T → T → Except Unit π) (plen : π → ℕ)
    (analyze : T → T → π → Except Unit R) (score : R → Except Unit ℚ)
    (stocks_a stocks_b : List T) : List (R × ℚ) :=
  List.insertionSort scoreDesc
    (collectPairs fetch plen analyze score stocks_a stocks_b)

/-- C7: screening visits exactly the ordered pairs (a, b) of the two ticker
lists, collects nothing for a = b, nothing when fetching raises, nothing
when the fetched panel has fewer than 500 rows, nothing when analysis or
scoring raises (the rest of the cross product is unaffected, since each
pair contributes independently), collects the scored result otherwise, and
returns the collection sorted in descending order of score — the empty
list when nothing was collected. -/
theorem screen_all_pairs_spec {T π R : Type} [DecidableEq T]
    (fetch : T → T → Except Unit π) (plen : π → ℕ)
    (analyze : T → T → π → Except Unit R) (score : R → Except Unit ℚ)
    (stocks_a stocks_b : List T) :
    List.Sorted scoreDesc (screenAllPairs fetch plen analyze score stocks_a stocks_b)
    ∧ (screenAllPairs fetch plen analyze score stocks_a stocks_b).Perm
        (collectPairs fetch plen analyze score stocks_a stocks_b)
    ∧ (∀ x : R × ℚ,
        x ∈ collectPairs fetch plen analyze score stocks_a stocks_b
          ↔ ∃ a ∈ stocks_a, ∃ b ∈ stocks_b,
              screenPair fetch plen analyze score a b = some x)
    ∧ (∀ a, screenPair fetch plen analyze score a a = none)
    ∧ (∀ a b, fetch a b = .error () →
        screenPair fetch plen analyze score a b = none)
    ∧ (∀ a b p, fetch a b = .ok p → plen p < 500 →
        screenPair fetch plen analyze score a b = none)
    ∧ (∀ a b p, fetch a b = .ok p → analyze a b p = .error () →
        screenPair fetch plen analyze score a b = none)
    ∧ (∀ a b p r s, a ≠ b → fetch a b = .ok p → ¬ plen p < 500 →
        analyze a b p = .ok r → score r = .ok s →
        screenPair fetch plen analyze score a b = some (r, s)) := by
  refine ⟨List.sorted_insertionSort scoreDesc _,
    List.perm_insertionSort scoreDesc _, ?_, ?_, ?_, ?_, ?_, ?_⟩
  · intro x
    simp [collectPairs, List.mem_bind, List.mem_filterMap]
  · intro a
    simp [screenPair]
  · intro a b h
    simp [screenPair, h]
  · intro a b p hf hlen
    simp [screenPair, hf, hlen]
  · intro a b p hf ha
    simp [screenPair, hf, ha]
  · intro a b p r s hab hf hlen ha hs
    simp [screenPair, hab, hf, hlen, ha, hs]

theorem screen_all_pairs_witness :
    screenPair (fun (_ : ℕ) (_ : ℕ) => Except.ok (600 : ℕ)) id
      (fun _ _ _ => Except.ok (7 : ℕ)) (fun _ => Except.ok 42) 0 0 = none
    ∧ screenPair (fun (_ : ℕ) (_ : ℕ) => Except.ok (600 : ℕ)) id
        (fun _ _ _ => Except.ok (7 : ℕ)) (fun _ => Except.ok 42) 0 1
        = some (7, 42) :=
  ⟨(screen_all_pairs_spec (fun _ _ => Except.ok 600) id
      (fun _ _ _ => Except.ok 7) (fun _ => Except.ok 42) [0] [1]).2.2.2.1 0,
   (screen_all_pairs_spec (fun _ _ => Except.ok 600) id
      (fun _ _ _ => Except.ok 7) (fun _ => Except.ok 42) [0] [1]).2.2.2.2.2.2.2
     0 1 600 7 42 (by decide) rfl (by decide) rfl rfl⟩

/-- Modelled from the spec: §4.5, the Cartesian product of candidate entry
thresholds, exit thresholds and lookback windows — no ParameterOptimizer
exists under `src/`, only §4.5 of the spec describes it. -/
def combos (entries exits : List ℚ) (lookbacks : List ℕ) : List (ℚ × ℚ × ℕ) :=
  entries.bind (fun e => exits.bind (fun x => lookbacks.map (fun w => (e, x, w))))

/-- Keep the candidate with the strictly larger key, first-found winning
ties (spec §9: first-found wins due to iteration order). -/
def pickBest {α : Type} (key : α → ℚ) (best : Option α) (cand : α) : Option α :=
  match best with
  | none => some cand
  | some b => if key b < key cand then some cand else some b

/-- Modelled from the spec: §4.5, exhaustive grid search — run the
BacktestEngine oracle `run` (returning a (Sharpe ratio, trade count) pair)
on every combination, discard those with trade count below `minTrades`,
and select the maximum-Sharpe survivor; `none` is the explicit "no
qualifying configuration" result. -/
def gridSearch (run : ℚ → ℚ → ℕ → ℚ × ℕ) (entries exits : List ℚ)
    (lookbacks : List ℕ) (minTrades : ℕ) : Option ((ℚ × ℚ × ℕ) × ℚ × ℕ) :=
  ((combos entries exits lookbacks).filterMap (fun c =>
      if minTrades ≤ (run c.1 c.2.1 c.2.2).2 then some (c, run c.1 c.2.1 c.2.2)
      else none)).foldl
    (pickBest (fun g => g.2.1)) none

theorem pickBest_ne_none {α : Type} (key : α → ℚ) (best : Option α) (cand : α) :
    pickBest key best cand ≠ none := by
  cases best with
  | none => simp [pickBest]
  | some b =>
      simp only [pickBest]
      split_ifs <;> simp

theorem foldl_pickBest_eq_none {α : Type} (key : α → ℚ) (l : List α) :
    ∀ acc : Option α,
      l.foldl (pickBest key) acc = none ↔ acc = none ∧ l = [] := by
  induction l with
  | nil => intro acc; simp
  | cons a l ih =>
      intro acc
      simp only [List.foldl_cons, ih (pickBest key acc a)]
      simp [pickBest_ne_none]

theorem foldl_pickBest_mem {α : Type} (key : α → ℚ) (l : List α) :
    ∀ (acc : Option α) (b : α),
      l.foldl (pickBest key) acc = some b → acc = some b ∨ b ∈ l := by
  induction l with
  | nil => intro acc b h; exact Or.inl h
  | cons a l ih =>
      intro acc b h
      rcases ih (pickBest key acc a) b h with h1 | h1
      · cases acc with
        | none =>
            simp only [pickBest, Option.some.injEq] at h1
            exact Or.inr (h1 ▸ List.mem_cons_self a l)
        | some c =>
            simp only [pickBest] at h1
            split_ifs at h1 with hc
            · exact Or.inr (List.mem_cons.mpr
                (Or.inl (Option.some.inj h1).symm))
            · exact Or.inl h1
      · exact Or.inr (List.mem_cons.mpr (Or.inr h1))

theorem foldl_pickBest_ge {α : Type} (key : α → ℚ) (l : List α) :
    ∀ (acc : Option α) (b : α),
      l.foldl (pickBest key) acc = some b →
        (∀ c, acc = some c → key c ≤ key b) ∧ (∀ x ∈ l, key x ≤ key b) := by
  induction l with
  | nil =>
      intro acc b h
      simp only [List.foldl_nil] at h
      refine ⟨fun c hc => ?_, fun x hx => absurd hx (List.not_mem_nil x)⟩
      rw [h] at hc
      exact (Option.some.inj hc) ▸ le_rfl
  | cons a l ih =>
      intro acc b h
      have hstep := ih (pickBest key acc a) b h
      have ha : key a ≤ key b := by
        cases acc with
        | none => exact hstep.1 a rfl
        | some c =>
            by_cases hc : key c < key a
            · exact hstep.1 a (by simp [pickBest, if_pos hc])
            · exact le_trans (not_lt.mp hc)
                (hstep.1 c (by simp [pickBest, if_neg hc]))
      refine ⟨fun c hc => ?_, fun x hx => ?_⟩
      · subst hc
        by_cases h2 : key c < key a
        · exact le_trans (le_of_lt h2) ha
        · exact hstep.1 c (by simp [pickBest, if_neg h2])
      · rcases List.mem_cons.mp hx with h2 | h2
        · exact h2 ▸ ha
        · exact hstep.2 x h2

/-- C5 (modelled from the spec): the grid is exactly the Cartesian product
of the three candidate lists; the search returns the explicit `none` result
precisely when every combination's trade count is below the minimum (never
an exception — the function is total — and never a default configuration);
and any returned configuration comes from the grid, was run, meets the
minimum-trade constraint and has a Sharpe ratio no smaller than every other
qualifying combination's. -/
theorem grid_search_spec (run : ℚ → ℚ → ℕ → ℚ × ℕ) (entries exits : List ℚ)
    (lookbacks : List ℕ) (minTrades : ℕ) :
    (∀ (e x : ℚ) (w : ℕ), (e, x, w) ∈ combos entries exits lookbacks
        ↔ e ∈ entries ∧ x ∈ exits ∧ w ∈ lookbacks)
    ∧ (gridSearch run entries exits lookbacks minTrades = none
        ↔ ∀ c ∈ combos entries exits lookbacks, (run c.1 c.2.1 c.2.2).2 < minTrades)
    ∧ (∀ g, gridSearch run entries exits lookbacks minTrades = some g →
        g.1 ∈ combos entries exits lookbacks
        ∧ g.2 = run g.1.1 g.1.2.1 g.1.2.2
        ∧ minTrades ≤ g.2.2
        ∧ ∀ c ∈ combos entries exits lookbacks,
            minTrades ≤ (run c.1 c.2.1 c.2.2).2 →
              (run c.1 c.2.1 c.2.2).1 ≤ g.2.1) := by
  refine ⟨?_, ?_, ?_⟩
  · intro e x w
    simp only [combos, List.mem_bind, List.mem_map]
    constructor
    · rintro ⟨e1, he1, x1, hx1, w1, hw1, heq⟩
      rw [Prod.mk.injEq, Prod.mk.injEq] at heq
      obtain ⟨h1, h2, h3⟩ := heq
      subst h1
      subst h2
      subst h3
      exact ⟨he1, hx1, hw1⟩
    · rintro ⟨he, hx, hw⟩
      exact ⟨e, he, x, hx, w, hw, rfl⟩
  · rw [gridSearch, foldl_pickBest_eq_none]
    simp only [true_and, List.filterMap_eq_nil]
    constructor
    · intro h c hc
      have := h c hc
      by_contra hle
      rw [if_pos (not_lt.mp hle)] at this
      exact Option.some_ne_none _ this
    · intro h c hc
      rw [if_neg (not_le.mpr (h c hc))]
  · intro g hg
    have hmem : g ∈ (combos entries exits lookbacks).filterMap (fun c =>
        if minTrades ≤ (run c.1 c.2.1 c.2.2).2 then some (c, run c.1 c.2.1 c.2.2)
        else none) := by
      rcases foldl_pickBest_mem _ _ _ _ hg with h1 | h1
      · exact absurd h1 (by simp)
      · exact h1
    rcases List.mem_filterMap.mp hmem with ⟨c, hc, hsome⟩
    have hcases : minTrades ≤ (run c.1 c.2.1 c.2.2).2 ∧ g = (c, run c.1 c.2.1 c.2.2) := by
      by_cases hT : minTrades ≤ (run c.1 c.2.1 c.2.2).2
      · rw [if_pos hT] at hsome
        exact ⟨hT, (Option.some.inj hsome).symm⟩
      · rw [if_neg hT] at hsome
        exact absurd hsome (Option.some_ne_none _).symm
    obtain ⟨hT, hgc⟩ := hcases
    subst hgc
    refine ⟨hc, rfl, hT, ?_⟩
    intro d hd hdT
    have hdmem : (d, run d.1 d.2.1 d.2.2) ∈ (combos entries exits lookbacks).filterMap
        (fun c => if minTrades ≤ (run c.1 c.2.1 c.2.2).2
          then some (c, run c.1 c.2.1 c.2.2) else none) :=
      List.mem_filterMap.mpr ⟨d, hd, by rw [if_pos hdT]⟩
    exact (foldl_pickBest_ge _ _ _ _ hg).2 _ hdmem

/-- A concrete BacktestEngine oracle for exercising the grid search:
Sharpe ratio equal to the entry threshold, trade count equal to the
lookback window. -/
def runOracle : ℚ → ℚ → ℕ → ℚ × ℕ := fun e _ w => (e, w)

theorem grid_search_witness :
    gridSearch runOracle [1, 2] [1] [3] 10 = none
    ∧ (runOracle 1 1 3).2 < 10 :=
  ⟨rfl,
   ((grid_search_spec runOracle [1, 2] [1] [3] 10).2.1.mp rfl) (1, 1, 3)
     (by decide)⟩

end PairsTrading
